import Mathlib

/-!
Shallow embedding of `src/app.py` (face-emotion-app): a Flask service with
three routes.  `/predict` decodes a base64 data URL, runs an external FER
detector, picks the top-scoring emotion of the first detected face, stores
the result in a SQLite table `predictions`, and returns it as JSON.
`/history` returns the last 100 rows ordered by `id DESC`.  `init_db`
creates the table if absent.

Modelling decisions:
- A row of the `predictions` table is a `Row` (id, timestamp, emotion,
  confidence); the table is a `Store` (list in insertion order).  SQLite
  `AUTOINCREMENT` assigns `max existing id + 1` (ids start at 1), which is
  `nextId` here since the app never deletes rows.
- Confidence scores are modelled as rationals: the Python code only copies
  and compares them (no arithmetic), so any linearly ordered field is a
  faithful model of the float values.
- The external FER detector is a parameter `detect : Img → List Emotions`,
  one emotion-score association list per detected face (a Python dict in
  insertion order; `faces[0].get("emotions", {})` is the head's list).
- `base64.b64decode` + PIL decoding is a parameter
  `decodeBody : List Char → Except String Img`: on a string that does
  contain a comma it either yields a pixel buffer or raises (the code
  catches only the `ValueError` of unpacking the comma split).
- `datetime.utcnow().isoformat()` is an external input, passed as `ts`.
-/

namespace FaceEmotionApp

/-- A row of the SQLite table `predictions`
(`id INTEGER PRIMARY KEY AUTOINCREMENT, timestamp TEXT, emotion TEXT,
confidence REAL`). -/
structure Row where
  id : Nat
  timestamp : String
  emotion : String
  confidence : ℚ
deriving Repr, DecidableEq

/-- The `predictions` table, rows in insertion order. -/
abbrev Store := List Row

/-- The id SQLite AUTOINCREMENT assigns to the next inserted row:
one more than the largest id used so far (the app never deletes rows). -/
def nextId (s : Store) : Nat := (s.map Row.id).foldl Nat.max 0 + 1

/-- `init_db`: `CREATE TABLE IF NOT EXISTS predictions ...` — an existing
table (with its rows) is kept; a missing table becomes an empty one. -/
def init_db : Option Store → Store
  | some s => s
  | none => []

/-- `save_prediction`: `INSERT INTO predictions (timestamp, emotion,
confidence) VALUES (?, ?, ?)` — appends one row with the next id. -/
def save_prediction (s : Store) (ts emotion : String) (confidence : ℚ) : Store :=
  s ++ [⟨nextId s, ts, emotion, confidence⟩]

/-- The comparison `ORDER BY id DESC` sorts by: `a` comes before `b` when
`b.id ≤ a.id`. -/
def idDesc (a b : Row) : Prop := b.id ≤ a.id

instance : DecidableRel idDesc := fun a b => Nat.decLe b.id a.id

/-- The rows returned by
`SELECT timestamp, emotion, confidence FROM predictions ORDER BY id DESC LIMIT 100`. -/
def historyRows (s : Store) : List Row :=
  (s.insertionSort idDesc).take 100

/-- The `/history` handler: returns the query result as JSON and, being a
pure SELECT, leaves the table as it is.  The pair is (response body, table
after the request). -/
def history (s : Store) : List Row × Store := (historyRows s, s)

/-- `data_url.split(",", 1)`: `none` when the string has no comma
(the unpacking `header, encoded = ...` raises the caught `ValueError`),
otherwise the parts before and after the first comma. -/
def splitComma : List Char → Option (List Char × List Char)
  | [] => none
  | c :: rest =>
    if c = ',' then some ([], rest)
    else (splitComma rest).map (fun p => (c :: p.1, p.2))

/-- `data_url_to_cv2_image`: split off the metadata before the first comma
(returning `None` when there is none), then decode the base64 payload into
a pixel buffer; the decoding steps are not wrapped in try/except, so their
exceptions propagate (`Except.error`). -/
def data_url_to_cv2_image {Img : Type} (decodeBody : List Char → Except String Img)
    (dataUrl : List Char) : Option (Except String Img) :=
  match splitComma dataUrl with
  | none => none
  | some (_, encoded) => some (decodeBody encoded)

/-- One detected face's emotion-score mapping: a Python dict rendered as an
association list in insertion order. -/
abbrev Emotions := List (String × ℚ)

/-- `max(emotions, key=emotions.get)` together with
`confidence = float(emotions[emotion])`: scan the entries, replacing the
current best only on a strictly larger score (CPython `max` keeps the first
maximal element); `none` on the empty dict (where the code returns early). -/
def maxEmotion : Emotions → Option (String × ℚ)
  | [] => none
  | e :: rest => some (rest.foldl (fun best p => if best.2 < p.2 then p else best) e)

/-- The JSON responses `/predict` can produce. -/
inductive PredictResponse where
  /-- 400, `{"error": "Missing 'image' in JSON body"}`. -/
  | missingImage
  /-- 400, `{"error": "Invalid image data"}`. -/
  | invalidImage
  /-- 200, `{"emotion": null, "confidence": 0.0, "message": "No face detected"}`. -/
  | noFaceDetected
  /-- 200, `{"emotion": null, "confidence": 0.0, "message": "No emotion scores"}`. -/
  | noEmotionScores
  /-- 200, `{"emotion": emotion, "confidence": confidence}`. -/
  | result (emotion : String) (confidence : ℚ)
deriving Repr, DecidableEq

/-- The HTTP status code of each response. -/
def PredictResponse.statusCode : PredictResponse → Nat
  | .missingImage => 400
  | .invalidImage => 400
  | _ => 200

/-- The `emotion` field of the response JSON: `none` when the field is
absent, `some none` for JSON `null`, `some (some e)` for a label. -/
def PredictResponse.emotionField : PredictResponse → Option (Option String)
  | .missingImage => none
  | .invalidImage => none
  | .noFaceDetected => some none
  | .noEmotionScores => some none
  | .result e _ => some (some e)

/-- The `confidence` field of the response JSON: `none` when absent. -/
def PredictResponse.confidenceField : PredictResponse → Option ℚ
  | .missingImage => none
  | .invalidImage => none
  | .noFaceDetected => some 0
  | .noEmotionScores => some 0
  | .result _ c => some c

/-- The `/predict` handler from `detector.detect_emotions(cv_img)` onward:
no face, or an empty emotion dict on the first face, answers without
touching the table; otherwise the top emotion of the first face is saved
and returned. -/
def handleFaces (faces : List Emotions) (ts : String) (s : Store) :
    PredictResponse × Store :=
  match faces with
  | [] => (.noFaceDetected, s)
  | face :: _ =>
    match maxEmotion face with
    | none => (.noEmotionScores, s)
    | some (emotion, confidence) =>
      (.result emotion confidence, save_prediction s ts emotion confidence)

/-- The whole `/predict` handler.  The JSON payload is `none` when
`request.get_json(silent=True)` yields nothing usable, otherwise the posted
object as an association list; a falsy (empty) object and an object without
an `image` key both take the missing-image branch.  An uncaught decoding
exception surfaces as `Except.error` (Flask turns it into a 500). -/
def predict {Img : Type} (detect : Img → List Emotions)
    (decodeBody : List Char → Except String Img) (ts : String)
    (payload : Option (List (String × List Char))) (s : Store) :
    Except String (PredictResponse × Store) :=
  match payload with
  | none => .ok (.missingImage, s)
  | some kv =>
    match kv.lookup "image" with
    | none => .ok (.missingImage, s)
    | some dataUrl =>
      match data_url_to_cv2_image decodeBody dataUrl with
      | none => .ok (.invalidImage, s)
      | some (.error e) => .error e
      | some (.ok img) => .ok (handleFaces (detect img) ts s)

/-! ### Helper lemmas -/

/-- The store invariant the app maintains: ids strictly increase in
insertion order (AUTOINCREMENT never reuses or reorders ids). -/
def Asc (s : Store) : Prop := List.Pairwise (fun a b => a.id < b.id) s

/-- The fold inside `maxEmotion` returns its seed or a list element. -/
lemma foldlBest_mem (e : String × ℚ) (l : Emotions) :
    l.foldl (fun best p => if best.2 < p.2 then p else best) e = e ∨
    l.foldl (fun best p => if best.2 < p.2 then p else best) e ∈ l := by
  induction l generalizing e with
  | nil => exact Or.inl rfl
  | cons p rest ih =>
    simp only [List.foldl_cons]
    rcases ih (if e.2 < p.2 then p else e) with h | h
    · rw [h]
      by_cases hc : e.2 < p.2
      · rw [if_pos hc]; exact Or.inr (List.mem_cons_self p rest)
      · rw [if_neg hc]; exact Or.inl rfl
    · exact Or.inr (List.mem_cons_of_mem p h)

/-- The fold inside `maxEmotion` dominates its seed and every element. -/
lemma foldlBest_ge (e : String × ℚ) (l : Emotions) :
    e.2 ≤ (l.foldl (fun best p => if best.2 < p.2 then p else best) e).2 ∧
    ∀ p ∈ l, p.2 ≤ (l.foldl (fun best p => if best.2 < p.2 then p else best) e).2 := by
  induction l generalizing e with
  | nil => exact ⟨le_refl _, by intro p hp; cases hp⟩
  | cons p rest ih =>
    simp only [List.foldl_cons]
    obtain ⟨ih1, ih2⟩ := ih (if e.2 < p.2 then p else e)
    have hseed : e.2 ≤ (if e.2 < p.2 then p else e).2 := by
      by_cases hc : e.2 < p.2
      · rw [if_pos hc]; exact le_of_lt hc
      · rw [if_neg hc]
    have hp : p.2 ≤ (if e.2 < p.2 then p else e).2 := by
      by_cases hc : e.2 < p.2
      · rw [if_pos hc]
      · rw [if_neg hc]; exact le_of_not_lt hc
    refine ⟨le_trans hseed ih1, ?_⟩
    intro q hq
    rcases List.mem_cons.mp hq with h | h
    · subst h; exact le_trans hp ih1
    · exact ih2 q h

/-- `maxEmotion` picks an element of the mapping whose score no other
entry exceeds. -/
lemma maxEmotion_spec {face : Emotions} {m : String × ℚ}
    (h : maxEmotion face = some m) : m ∈ face ∧ ∀ p ∈ face, p.2 ≤ m.2 := by
  cases face with
  | nil => simp [maxEmotion] at h
  | cons e rest =>
    simp only [maxEmotion, Option.some.injEq] at h
    subst h
    constructor
    · rcases foldlBest_mem e rest with h | h
      · rw [h]; exact List.mem_cons_self e rest
      · exact List.mem_cons_of_mem e h
    · intro p hp
      obtain ⟨h1, h2⟩ := foldlBest_ge e rest
      rcases List.mem_cons.mp hp with h | h
      · subst h; exact h1
      · exact h2 p h

/-- `splitComma` fails exactly on comma-less input. -/
lemma splitComma_eq_none {l : List Char} : splitComma l = none ↔ ',' ∉ l := by
  induction l with
  | nil => simp [splitComma]
  | cons c rest ih =>
    by_cases hc : c = ','
    · subst hc; simp [splitComma]
    · simp only [splitComma, if_neg hc, Option.map_eq_none', ih, List.mem_cons]
      constructor
      · intro h hmem
        rcases hmem with h1 | h1
        · exact hc h1.symm
        · exact h h1
      · intro h h1
        exact h (Or.inr h1)

/-- Inserting an element that the relation puts after everything lands at
the end of the list. -/
lemma orderedInsert_eq_append {x : Row} {l : List Row}
    (h : ∀ y ∈ l, ¬ idDesc x y) : l.orderedInsert idDesc x = l ++ [x] := by
  induction l with
  | nil => rfl
  | cons y ys ih =>
    rw [List.orderedInsert, if_neg (h y (List.mem_cons_self y ys)),
      ih fun z hz => h z (List.mem_cons_of_mem y hz)]
    rfl

/-- On a store whose ids strictly increase, `ORDER BY id DESC` is exactly
the reverse of insertion order. -/
lemma insertionSort_idDesc_eq_reverse {s : Store} (h : Asc s) :
    s.insertionSort idDesc = s.reverse := by
  induction s with
  | nil => rfl
  | cons x xs ih =>
    rw [List.insertionSort, ih (List.Pairwise.of_cons h),
      orderedInsert_eq_append, List.reverse_cons]
    intro y hy
    have hxy : x.id < y.id := (List.pairwise_cons.mp h).1 y (List.mem_reverse.mp hy)
    exact not_le.mpr hxy

/-- The seed bounds a `foldl Nat.max` from below. -/
lemma le_foldl_max (l : List Nat) (a : Nat) : a ≤ l.foldl Nat.max a := by
  induction l generalizing a with
  | nil => exact le_refl a
  | cons x xs ih => exact le_trans (Nat.le_max_left a x) (ih (Nat.max a x))

/-- Every element bounds a `foldl Nat.max` from below. -/
lemma mem_le_foldl_max (l : List Nat) (a x : Nat) (hx : x ∈ l) :
    x ≤ l.foldl Nat.max a := by
  induction l generalizing a with
  | nil => cases hx
  | cons y ys ih =>
    simp only [List.foldl_cons]
    rcases List.mem_cons.mp hx with h | h
    · subst h; exact le_trans (Nat.le_max_right a x) (le_foldl_max ys (Nat.max a x))
    · exact ih (Nat.max a y) h

/-- AUTOINCREMENT: the next id is larger than every id already present. -/
lemma nextId_gt {s : Store} {r : Row} (hr : r ∈ s) : r.id < nextId s :=
  Nat.lt_succ_of_le (mem_le_foldl_max (s.map Row.id) 0 r.id
    (List.mem_map_of_mem Row.id hr))

/-- `save_prediction` preserves the strictly-increasing-ids invariant. -/
lemma asc_save {s : Store} (h : Asc s) (ts e : String) (c : ℚ) :
    Asc (save_prediction s ts e c) := by
  unfold save_prediction Asc
  rw [List.pairwise_append]
  refine ⟨h, List.pairwise_singleton _ _, ?_⟩
  intro a ha b hb
  rw [List.mem_singleton.mp hb]
  exact nextId_gt ha

/-- Inverting `handleFaces` on its success branch: the store gained
exactly the saved row and the response carries the chosen maximum. -/
lemma handleFaces_result {faces : List Emotions} {ts : String} {s : Store}
    {e : String} {c : ℚ} {s' : Store}
    (h : handleFaces faces ts s = (.result e c, s')) :
    ∃ face rest, faces = face :: rest ∧ maxEmotion face = some (e, c) ∧
      s' = save_prediction s ts e c := by
  cases faces with
  | nil => simp [handleFaces] at h
  | cons face rest =>
    rcases hm : maxEmotion face with _ | ⟨em, cm⟩
    · simp [handleFaces, hm] at h
    · simp only [handleFaces, hm, Prod.mk.injEq, PredictResponse.result.injEq] at h
      obtain ⟨⟨he, hc⟩, hs⟩ := h
      subst he; subst hc
      exact ⟨face, rest, rfl, hm, hs.symm⟩

/-- `LIMIT 100` keeps the head of a non-empty result. -/
lemma head_take_pos {α : Type} (x : α) (l : List α) (n : Nat) (h : 0 < n) :
    ((x :: l).take n).head? = some x := by
  cases n with
  | zero => cases h
  | succ m => rfl

/-- `handleFaces` never produces the invalid-image error response. -/
lemma handleFaces_fst_ne_invalid (faces : List Emotions) (ts : String) (s : Store) :
    (handleFaces faces ts s).1 ≠ .invalidImage := by
  cases faces with
  | nil => simp [handleFaces]
  | cons face rest =>
    rcases hm : maxEmotion face with _ | ⟨em, cm⟩ <;> simp [handleFaces, hm]

/-- The store states the app can actually reach: empty at startup, then
images of the request handlers. -/
inductive Reachable : Store → Prop where
  | empty : Reachable (init_db none)
  | predictStep (faces : List Emotions) (ts : String) {s : Store} :
      Reachable s → Reachable (handleFaces faces ts s).2
  | historyStep {s : Store} : Reachable s → Reachable (history s).2

/-- Every reachable store satisfies the strictly-increasing-ids invariant,
so the `Asc` hypotheses below hold of every real store state. -/
lemma reachable_asc {s : Store} (h : Reachable s) : Asc s := by
  induction h with
  | empty => exact List.Pairwise.nil
  | predictStep faces ts hs ih =>
    cases faces with
    | nil => exact ih
    | cons face rest =>
      rcases hm : maxEmotion face with _ | ⟨em, cm⟩
      · simpa [handleFaces, hm] using ih
      · simpa [handleFaces, hm] using asc_save ih ts em cm
  | historyStep hs ih => exact ih

/-! ### The claims -/

/-- C1: for every `/predict` request whose decoded image yields at least
one detected face with a non-empty emotion-score mapping, the response's
`emotion` field is a label of maximal score in the first face's mapping and
the `confidence` field equals that label's score. -/
theorem c1_predict_returns_top_emotion_of_first_face
    (faces : List Emotions) (face : Emotions) (rest : List Emotions)
    (ts : String) (s : Store)
    (hfaces : faces = face :: rest) (hne : face ≠ []) :
    ∃ e c, (handleFaces faces ts s).1 = .result e c ∧
      (handleFaces faces ts s).1.emotionField = some (some e) ∧
      (handleFaces faces ts s).1.confidenceField = some c ∧
      (e, c) ∈ face ∧ ∀ p ∈ face, p.2 ≤ c := by
  subst hfaces
  rcases hm : maxEmotion face with _ | ⟨e, c⟩
  · rcases face with _ | ⟨p, l⟩
    · exact absurd rfl hne
    · simp [maxEmotion] at hm
  · obtain ⟨hmem, hmax⟩ := maxEmotion_spec hm
    exact ⟨e, c, by simp [handleFaces, hm],
      by simp [handleFaces, hm, PredictResponse.emotionField],
      by simp [handleFaces, hm, PredictResponse.confidenceField], hmem, hmax⟩

theorem c1_witness :
    ∃ e c,
      (handleFaces [[("happy", (9:ℚ)/10), ("sad", (1:ℚ)/10)]] "t" []).1 = .result e c ∧
      (handleFaces [[("happy", (9:ℚ)/10), ("sad", (1:ℚ)/10)]] "t" []).1.emotionField =
        some (some e) ∧
      (handleFaces [[("happy", (9:ℚ)/10), ("sad", (1:ℚ)/10)]] "t" []).1.confidenceField =
        some c ∧
      (e, c) ∈ [("happy", (9:ℚ)/10), ("sad", (1:ℚ)/10)] ∧
      ∀ p ∈ [("happy", (9:ℚ)/10), ("sad", (1:ℚ)/10)], p.2 ≤ c :=
  c1_predict_returns_top_emotion_of_first_face
    [[("happy", (9:ℚ)/10), ("sad", (1:ℚ)/10)]]
    [("happy", (9:ℚ)/10), ("sad", (1:ℚ)/10)] [] "t" [] rfl (by decide)

/-- C2: every `/predict` request that returns a predicted result appends
exactly one record (timestamp, emotion label, confidence) to the store. -/
theorem c2_result_appends_exactly_one_record
    (faces : List Emotions) (ts : String) (s : Store) (e : String) (c : ℚ)
    (s' : Store) (h : handleFaces faces ts s = (.result e c, s')) :
    s' = s ++ [⟨nextId s, ts, e, c⟩] := by
  obtain ⟨face, rest, -, -, hs⟩ := handleFaces_result h
  rw [hs]; rfl

theorem c2_witness :
    (handleFaces [[("happy", (1:ℚ)/2)]] "t" []).2 =
      [] ++ [⟨nextId [], "t", "happy", (1:ℚ)/2⟩] :=
  c2_result_appends_exactly_one_record [[("happy", (1:ℚ)/2)]] "t" []
    "happy" ((1:ℚ)/2) _ rfl

/-- C3: on every store satisfying the id invariant the app maintains,
`/history` returns the most recent records, at most 100, newest first
(the reverse of insertion order, truncated to 100). -/
theorem c3_history_most_recent_100
    (s : Store) (h : Asc s) :
    (history s).1 = s.reverse.take 100 ∧ (history s).1.length ≤ 100 := by
  have heq : (history s).1 = s.reverse.take 100 := by
    show (s.insertionSort idDesc).take 100 = s.reverse.take 100
    rw [insertionSort_idDesc_eq_reverse h]
  refine ⟨heq, ?_⟩
  rw [heq, List.length_take]
  exact min_le_left _ _

theorem c3_witness :
    (history [⟨1, "a", "happy", (1:ℚ)/2⟩, ⟨2, "b", "sad", (1:ℚ)/3⟩]).1 =
      [⟨1, "a", "happy", (1:ℚ)/2⟩, ⟨2, "b", "sad", (1:ℚ)/3⟩].reverse.take 100 ∧
    (history [⟨1, "a", "happy", (1:ℚ)/2⟩, ⟨2, "b", "sad", (1:ℚ)/3⟩]).1.length ≤ 100 :=
  c3_history_most_recent_100 [⟨1, "a", "happy", (1:ℚ)/2⟩, ⟨2, "b", "sad", (1:ℚ)/3⟩]
    (List.pairwise_cons.mpr ⟨by intro b hb; rw [List.mem_singleton.mp hb]; exact Nat.one_lt_two,
      List.pairwise_singleton _ _⟩)

/-- C4: immediately after a `/predict` that persists a prediction, the
first entry of `/history` is exactly the record just written, carrying the
same emotion label and confidence as the `/predict` response. -/
theorem c4_roundtrip_first_history_entry
    (faces : List Emotions) (ts : String) (s : Store) (e : String) (c : ℚ)
    (s' : Store) (hAsc : Asc s)
    (h : handleFaces faces ts s = (.result e c, s')) :
    (history s').1.head? = some ⟨nextId s, ts, e, c⟩ := by
  obtain ⟨face, rest, -, -, hs⟩ := handleFaces_result h
  subst hs
  have hAsc' : Asc (save_prediction s ts e c) := asc_save hAsc ts e c
  have hunf : (history (save_prediction s ts e c)).1
      = (((save_prediction s ts e c).insertionSort idDesc).take 100) := rfl
  rw [hunf, insertionSort_idDesc_eq_reverse hAsc']
  show (((s ++ [(⟨nextId s, ts, e, c⟩ : Row)]).reverse).take 100).head? =
    some ⟨nextId s, ts, e, c⟩
  rw [List.reverse_append]
  exact head_take_pos _ _ 100 (by norm_num)

theorem c4_witness :
    (history (handleFaces [[("happy", (1:ℚ)/2)]] "t" []).2).1.head? =
      some ⟨nextId [], "t", "happy", (1:ℚ)/2⟩ :=
  c4_roundtrip_first_history_entry [[("happy", (1:ℚ)/2)]] "t" [] "happy"
    ((1:ℚ)/2) _ List.Pairwise.nil rfl

/-- C5: the store is append-only: `init_db` keeps an existing table's rows
untouched, `/predict` only ever appends at most one row after the existing
ones, and `/history` leaves the table as it was. -/
theorem c5_append_only (s : Store) (faces : List Emotions) (ts : String) :
    init_db (some s) = s ∧ init_db none = [] ∧
    (∃ t, (handleFaces faces ts s).2 = s ++ t ∧ t.length ≤ 1) ∧
    (history s).2 = s := by
  refine ⟨rfl, rfl, ?_, rfl⟩
  cases faces with
  | nil => exact ⟨[], by simp [handleFaces], by simp⟩
  | cons face rest =>
    rcases hm : maxEmotion face with _ | ⟨e, c⟩
    · exact ⟨[], by simp [handleFaces, hm], by simp⟩
    · exact ⟨[⟨nextId s, ts, e, c⟩], by simp [handleFaces, hm, save_prediction], by simp⟩

/-- C6: `/history` is a pure read: handling it leaves the persistence
store exactly unchanged. -/
theorem c6_history_pure_read (s : Store) : (history s).2 = s := rfl

/-- C7: when every detected face maps emotions to scores in `[0, 1]`, the
confidence in every `/predict` response lies in `[0, 1]`, and so does the
confidence of any record the request persisted. -/
theorem c7_confidence_in_unit_interval
    (faces : List Emotions) (ts : String) (s : Store)
    (h : ∀ face ∈ faces, ∀ p ∈ face, 0 ≤ p.2 ∧ p.2 ≤ 1) :
    (∀ c, (handleFaces faces ts s).1.confidenceField = some c →
      0 ≤ c ∧ c ≤ 1) ∧
    (∀ r ∈ (handleFaces faces ts s).2,
      r ∈ s ∨ (0 ≤ r.confidence ∧ r.confidence ≤ 1)) := by
  cases faces with
  | nil =>
    constructor
    · intro c hc
      simp only [handleFaces, PredictResponse.confidenceField,
        Option.some.injEq] at hc
      subst hc
      norm_num
    · intro r hr
      exact Or.inl (by simpa [handleFaces] using hr)
  | cons face rest =>
    rcases hm : maxEmotion face with _ | ⟨e, c⟩
    · constructor
      · intro c hc
        simp only [handleFaces, hm, PredictResponse.confidenceField,
          Option.some.injEq] at hc
        subst hc
        norm_num
      · intro r hr
        exact Or.inl (by simpa [handleFaces, hm] using hr)
    · have hc : 0 ≤ c ∧ c ≤ 1 :=
        h face (List.mem_cons_self face rest) (e, c) (maxEmotion_spec hm).1
      constructor
      · intro c0 hc0
        simp only [handleFaces, hm, PredictResponse.confidenceField,
          Option.some.injEq] at hc0
        subst hc0
        exact hc
      · intro r hr
        simp only [handleFaces, hm, save_prediction] at hr
        rcases List.mem_append.mp hr with h1 | h1
        · exact Or.inl h1
        · rw [List.mem_singleton.mp h1]
          exact Or.inr hc

theorem c7_witness :
    (∀ c, (handleFaces [[("happy", (1:ℚ)/2)]] "t" []).1.confidenceField = some c →
      0 ≤ c ∧ c ≤ 1) ∧
    (∀ r ∈ (handleFaces [[("happy", (1:ℚ)/2)]] "t" []).2,
      r ∈ ([] : Store) ∨ (0 ≤ r.confidence ∧ r.confidence ≤ 1)) :=
  c7_confidence_in_unit_interval [[("happy", (1:ℚ)/2)]] "t" [] (by norm_num)

/-- C8: the image decoder returns `None` exactly when the data URL has no
comma; with a comma it returns a decoded buffer or propagates an
exception; hence the 400 invalid-image branch of `/predict` is reached
precisely for comma-less image strings. -/
theorem c8_invalid_image_iff_no_comma {Img : Type}
    (detect : Img → List Emotions) (decodeBody : List Char → Except String Img)
    (ts : String) (kv : List (String × List Char)) (dataUrl : List Char)
    (s : Store) (himg : kv.lookup "image" = some dataUrl) :
    (data_url_to_cv2_image decodeBody dataUrl = none ↔ ',' ∉ dataUrl) ∧
    (',' ∈ dataUrl → ∃ res, data_url_to_cv2_image decodeBody dataUrl = some res) ∧
    (predict detect decodeBody ts (some kv) s = .ok (.invalidImage, s) ↔
      ',' ∉ dataUrl) := by
  have h1 : data_url_to_cv2_image decodeBody dataUrl = none ↔ ',' ∉ dataUrl := by
    rw [← splitComma_eq_none]
    unfold data_url_to_cv2_image
    cases hsp : splitComma dataUrl with
    | none => simp
    | some p => simp
  refine ⟨h1, ?_, ?_⟩
  · intro hmem
    unfold data_url_to_cv2_image
    rcases hsp : splitComma dataUrl with _ | p
    · exact absurd (splitComma_eq_none.mp hsp) (not_not_intro hmem)
    · exact ⟨decodeBody p.2, rfl⟩
  · rw [← h1]
    cases hd : data_url_to_cv2_image decodeBody dataUrl with
    | none => simp [predict, himg, hd]
    | some res =>
      cases res with
      | error err => simp [predict, himg, hd]
      | ok img =>
        simp only [predict, himg, hd]
        constructor
        · intro hcon
          exact absurd (congrArg Prod.fst (Except.ok.inj hcon))
            (handleFaces_fst_ne_invalid (detect img) ts s)
        · intro hcon
          exact absurd hcon (Option.some_ne_none _)

theorem c8_witness :
    (data_url_to_cv2_image (fun _ => Except.ok ()) [',', 'x'] = none ↔
      ',' ∉ [',', 'x']) ∧
    (',' ∈ [',', 'x'] →
      ∃ res, data_url_to_cv2_image (fun _ => Except.ok ()) [',', 'x'] = some res) ∧
    (predict (fun _ => ([] : List Emotions)) (fun _ => Except.ok ()) "t"
        (some [("image", [',', 'x'])]) [] = .ok (.invalidImage, []) ↔
      ',' ∉ [',', 'x']) :=
  c8_invalid_image_iff_no_comma (fun _ => ([] : List Emotions))
    (fun _ => Except.ok ()) "t" [("image", [',', 'x'])] [',', 'x'] [] rfl

/-- C9: with no detected face, or an empty emotion mapping on the first
face, `/predict` answers 200 with emotion `null`, confidence `0.0` and a
message, and the store is left unchanged. -/
theorem c9_no_face_paths_touch_nothing
    (rest : List Emotions) (ts : String) (s : Store) :
    handleFaces [] ts s = (.noFaceDetected, s) ∧
    handleFaces ([] :: rest) ts s = (.noEmotionScores, s) ∧
    PredictResponse.statusCode .noFaceDetected = 200 ∧
    PredictResponse.statusCode .noEmotionScores = 200 ∧
    PredictResponse.emotionField .noFaceDetected = some none ∧
    PredictResponse.emotionField .noEmotionScores = some none ∧
    PredictResponse.confidenceField .noFaceDetected = some 0 ∧
    PredictResponse.confidenceField .noEmotionScores = some 0 :=
  ⟨rfl, rfl, rfl, rfl, rfl, rfl, rfl, rfl⟩

/-- C10: the `/predict` response depends only on the first detected face:
detector outputs agreeing on the first face give identical responses (and
identical store updates), whatever the additional faces are. -/
theorem c10_depends_only_on_first_face
    (face : Emotions) (r1 r2 : List Emotions) (ts : String) (s : Store) :
    handleFaces (face :: r1) ts s = handleFaces (face :: r2) ts s := rfl

end FaceEmotionApp
